import Mathlib

/-!
Verification of the ctxmenu menu engine: a shallow embedding of the menu
tree, layout, navigation and buffer-lifecycle code, with theorems checking
the specified properties against the embedded definitions.

Conventions of the embedding:
- Go `int` fields become `Int`; list lengths are cast where compared.
- Text metrics, icon decoding and the arrow bitmaps are external
  collaborators; they enter as abstract fields of `Config`
  (`textWidth`, `decodeOk`, `arrowW`/`arrowH`/`rightArrowW`).
- Go strings are modelled at character granularity (`String`/`List Char`).
- A Go runtime panic (index out of range) is modelled as `Option.none`.
-/

set_option linter.unusedVariables false

namespace Ctxmenu

/-- Configuration of the menu engine (struct Config and the ContextMenu
fields used by the layout and navigation code, ctxmenu.go 54-102), plus the
abstracted external collaborators: `textWidth` for messureText, `decodeOk`
for icon decoding success, `arrowW`/`arrowH` for the bottomArrow bitmap
bounds and `rightArrowW` for the rightArrow bitmap width. `monMaxX` and
`monMaxY` are the Max corner of `ContextMenu.Monitor()`. -/
structure Config where
  minItemWidth : Int
  borderSize : Int
  seperatorLength : Int
  iconSize : Int
  paddingX : Int
  paddingY : Int
  fontHeight : Int
  arrowW : Int
  arrowH : Int
  rightArrowW : Int
  monMaxX : Int
  monMaxY : Int
  textWidth : String → Int
  decodeOk : String → Bool
  disableIcons : Bool

/-- OverflowItem (menu.go 27-33). -/
inductive OverflowItem where
  | top
  | none
  | bottom
deriving DecidableEq, Repr

/-- The non-recursive fields of Item (menu.go 36-46). -/
structure ItemCore (T : Type) where
  label : String
  output : T
  w : Int
  h : Int
  hasIcon : Bool
  overflower : OverflowItem
deriving DecidableEq, Repr

/-- The non-recursive fields of Menu (menu.go 49-70) that the layout and
navigation engine reads and writes. -/
structure MenuCore where
  first : Int
  selected : Int
  overflow : Int
  x : Int
  y : Int
  w : Int
  h : Int
  itemsChanged : Bool
deriving DecidableEq, Repr

mutual
/-- Item (menu.go 36-46): core fields plus the optionally owned submenu. -/
inductive MItem (T : Type) : Type where
  | mk (core : ItemCore T) (submenu : Option (MMenu T)) : MItem T
/-- Menu (menu.go 49-70): core fields plus the owned item list. -/
inductive MMenu (T : Type) : Type where
  | mk (core : MenuCore) (items : List (MItem T)) : MMenu T
end

variable {T : Type}

def MItem.core : MItem T → ItemCore T
  | .mk c _ => c

def MItem.submenu : MItem T → Option (MMenu T)
  | .mk _ s => s

def MMenu.core : MMenu T → MenuCore
  | .mk c _ => c

def MMenu.items : MMenu T → List (MItem T)
  | .mk _ its => its

def MMenu.setCore : MMenu T → MenuCore → MMenu T
  | .mk _ its, c => .mk c its

/-- MakeMenu (menu.go 73-86): all fields take the Go zero value except
`x = y = -1`; in particular `overflow` starts at 0, not -1, and
`selected` starts at 0, not -1. The two synthetic overflow indicator
items are pure functions of the configuration, see `makeOverflowI`. -/
def makeMenu : MMenu T :=
  .mk { first := 0, selected := 0, overflow := 0, x := -1, y := -1,
        w := 0, h := 0, itemsChanged := false } []

/-- makeOverflow (menu.go 163-175): the synthetic scroll-indicator item;
its output is the Go zero value of T. -/
def makeOverflowI [Inhabited T] (cfg : Config) (top : Bool) : ItemCore T :=
  { label := ""
    output := default
    w := cfg.arrowW + cfg.paddingX * 2
    h := cfg.arrowH + cfg.paddingY * 2
    hasIcon := false
    overflower := if top then .top else .bottom }

/-- makeItem (menu.go 123-161), with icon decode/resize abstracted by
`cfg.decodeOk`: an empty label is a separator of height `1 + 2*paddingY`
and gets no icon; otherwise width adds the measured text and an optional
icon widens the item and raises its height. -/
def makeItem (cfg : Config) (label : String) (output : T) (imagefile : String) :
    Except String (ItemCore T) :=
  let w0 := cfg.paddingX * 2
  if label = "" then
    .ok { label := label, output := output, w := w0, h := 1 + cfg.paddingY * 2,
          hasIcon := false, overflower := .none }
  else
    let w1 := w0 + cfg.textWidth label
    let h1 := cfg.fontHeight + cfg.paddingY * 2
    if imagefile ≠ "" ∧ ¬cfg.disableIcons then
      if cfg.decodeOk imagefile then
        .ok { label := label, output := output,
              w := w1 + cfg.iconSize + cfg.paddingX,
              h := max h1 (cfg.iconSize + cfg.paddingY * 2),
              hasIcon := true, overflower := .none }
      else
        .error "cannot decode image"
    else
      .ok { label := label, output := output, w := w1, h := h1,
            hasIcon := false, overflower := .none }

/-- AppendItem (menu.go 177-185): appends a made item and marks the menu
dirty; the Bool is the Go error (true = non-nil). On error the menu is
unchanged. -/
def appendItemM (cfg : Config) (m : MMenu T) (label : String) (output : T)
    (imagefile : String) : MMenu T × Bool :=
  match makeItem cfg label output imagefile with
  | .error _ => (m, true)
  | .ok c =>
      (.mk { m.core with itemsChanged := true } (m.items ++ [.mk c Option.none]), false)

/-- setSubmenu (menu.go 187-191), the item-side effect: widen the item by
the rightArrow width and link the submenu. The parent-width update
happens at the call sites. -/
def setSubmenuI (cfg : Config) (it : MItem T) (sub : MMenu T) : MItem T :=
  .mk { it.core with w := it.core.w + cfg.rightArrowW } (some sub)

/-- Append (menu.go 88-107): walks `depth` levels down the rightmost chain,
creating an empty submenu under the tail item where one is missing (which
also widens that item and the menu, setSubmenu menu.go 187-191), and fails
with the depth error as soon as the current menu has no items. The result
is the post-call tree plus the Go error flag; mutations made before the
failure persist, exactly as with the pointer mutation in the source. -/
def appendGo (cfg : Config) (m : MMenu T) (label : String) (output : T)
    (imagefile : String) : Nat → MMenu T × Bool
  | 0 => appendItemM cfg m label output imagefile
  | d + 1 =>
    match m.items.getLast? with
    | Option.none => (m, true)
    | some tail =>
      match tail.submenu with
      | some sub =>
          let r := appendGo cfg sub label output imagefile d
          (.mk m.core (m.items.dropLast ++ [.mk tail.core (some r.1)]), r.2)
      | Option.none =>
          let tail1 := setSubmenuI cfg tail makeMenu
          let r := appendGo cfg (makeMenu : MMenu T) label output imagefile d
          (.mk { m.core with w := max m.core.w tail1.core.w }
             (m.items.dropLast ++ [.mk tail1.core (some r.1)]), r.2)

/-- Success predicate of the depth walk in Append: `chainOk m d` holds iff
walking `d` levels down the rightmost chain from `m` does not hit a menu
with no items (a missing submenu is created empty on the way, so further
depth below it fails). -/
def chainOk : MMenu T → Nat → Bool
  | _, 0 => true
  | m, d + 1 =>
    match m.items.getLast? with
    | Option.none => false
    | some tail =>
      match tail.submenu with
      | Option.none => d == 0
      | some sub => chainOk sub d

mutual
/-- All (label, output) entries of the tree rooted at an item, in order. -/
def itemEntries : MItem T → List (String × T)
  | .mk c Option.none => [(c.label, c.output)]
  | .mk c (some sub) => (c.label, c.output) :: menuEntries sub
/-- All (label, output) entries of the tree rooted at a menu, in order. -/
def menuEntries : MMenu T → List (String × T)
  | .mk _ its => itemsEntries its
/-- All (label, output) entries of a list of item trees, in order. -/
def itemsEntries : List (MItem T) → List (String × T)
  | [] => []
  | it :: rest => itemEntries it ++ itemsEntries rest
end

mutual
/-- Number of Menu nodes in the tree rooted at a menu. -/
def menuCount : MMenu T → Nat
  | .mk _ its => 1 + itemsMenuCount its
/-- Number of Menu nodes hanging below an item. -/
def itemMenuCount : MItem T → Nat
  | .mk _ Option.none => 0
  | .mk _ (some sub) => menuCount sub
/-- Number of Menu nodes hanging below a list of items. -/
def itemsMenuCount : List (MItem T) → Nat
  | [] => 0
  | it :: rest => itemMenuCount it + itemsMenuCount rest
end

/-! ## Layout (the dirty-recompute branch of show, menu.go 260-284) -/

/-- Result of the geometry recomputation. -/
structure LayoutOut where
  w : Int
  h : Int
  first : Int
  overflow : Int
deriving DecidableEq, Repr

/-- The overflow loop of show (menu.go 275-282): starting from the reserved
height, accumulate item heights greedily; the first item whose height would
push past `maxY` stops the loop and its index becomes the overflow index
(-1 if the loop runs out of items). Items carry their indices. -/
def overflowScan (maxY : Int) : List (Nat × ItemCore T) → Int → Int → Int × Int × Int
  | [], w, h => (w, h, -1)
  | (i, c) :: rest, w, h =>
    if c.h + h > maxY then (w, h, (i : Int))
    else overflowScan maxY rest (max w c.w) (h + c.h)

/-- The geometry recompute of show when itemsChanged (menu.go 260-284):
width is the max of the configured minimum and the item widths, height is
border*2 plus the sum of item heights; if that exceeds the monitor bottom,
height restarts from two indicator rows (arrow height + 2*paddingY +
border, doubled) and the greedy overflow loop runs; `first` is reset to 0
in both cases and `overflow` is -1 unless the loop stops. -/
def layoutGeometry (cfg : Config) (items : List (ItemCore T)) : LayoutOut :=
  let w0 := cfg.borderSize * 2 + cfg.minItemWidth
  let h0 := cfg.borderSize * 2
  let w1 := items.foldl (fun w c => max w c.w) w0
  let h1 := items.foldl (fun h c => h + c.h) h0
  if h1 > cfg.monMaxY then
    let base := (cfg.arrowH + cfg.paddingY * 2 + cfg.borderSize) * 2
    let r := overflowScan cfg.monMaxY items.enum w1 base
    { w := r.1, h := r.2.1, first := 0, overflow := r.2.2 }
  else
    { w := w1, h := h1, first := 0, overflow := -1 }

/-- The effect of show on the menu core when the menu is dirty
(menu.go 260-284); a clean menu is untouched. -/
def applyLayout (cfg : Config) (m : MMenu T) : MMenu T :=
  if m.core.itemsChanged then
    let lo := layoutGeometry cfg (m.items.map MItem.core)
    let c := { m.core with
                 itemsChanged := false
                 w := lo.w
                 h := lo.h
                 first := lo.first
                 overflow := lo.overflow }
    m.setCore c
  else m

/-- Index of the first item excluded by greedy accumulation starting from
accumulated height `acc`, following the words of the specification: reserve
the indicator rows, then accumulate items from the start until the next
item would overflow `maxY`; `none` when every item fits. -/
def specFirstExcluded (maxY : Int) : List Int → Int → Option Nat
  | [], _ => Option.none
  | h :: rest, acc =>
    if acc + h > maxY then some 0
    else (specFirstExcluded maxY rest (acc + h)).map (· + 1)

/-! ## Visible items, hit-testing (menu.go 407-431, 480-515) -/

/-- The regular-item part of visibleItems (menu.go 414-424): indices `i` in
the half-open window `[start, stop)` paired with the item cores. Indexing
out of `[0, len)` would be a Go panic; under the navigation invariant the
window always lies inside the list, so the embedding simply keeps the
in-range indices. -/
def sliceIdx (items : List (ItemCore T)) (start stop : Int) : List (Int × ItemCore T) :=
  (List.range items.length).filterMap fun (j : Nat) =>
    if start ≤ (j : Int) ∧ (j : Int) < stop then
      match items.get? j with
      | some c => some ((j : Int), c)
      | Option.none => Option.none
    else Option.none

/-- visibleItems (menu.go 407-431): when overflowing (and `withOverflow`),
the top indicator, then the items from `first` to `first + overflow`, then
the bottom indicator; indicators are yielded with index -1. When not
overflowing, all items. -/
def visibleSeq [Inhabited T] (cfg : Config) (m : MMenu T) (withOverflow : Bool) :
    List (Int × ItemCore T) :=
  let cores := m.items.map MItem.core
  let start : Int := if m.core.overflow = -1 then 0 else m.core.first
  let stop : Int := if m.core.overflow = -1 then (cores.length : Int)
                    else m.core.first + m.core.overflow
  let mid := sliceIdx cores start stop
  if withOverflow ∧ m.core.overflow ≠ -1 then
    ((-1 : Int), makeOverflowI cfg true) :: (mid ++ [((-1 : Int), makeOverflowI cfg false)])
  else mid

/-- The scanning loop of getitem (menu.go 483-488). -/
def getitemGo : List (Int × ItemCore T) → Int → Int → Int
  | [], _, _ => -1
  | (i, c) :: rest, y, target =>
    if i ≠ -1 ∧ y ≤ target ∧ target < y + c.h then i
    else getitemGo rest (y + c.h) target

/-- getitem (menu.go 480-491): hit-test a y coordinate against the visible
items (indicators included in the running height but never returned). -/
def getitem [Inhabited T] (cfg : Config) (m : MMenu T) (target : Int) : Int :=
  getitemGo (visibleSeq cfg m true) cfg.borderSize target

/-- isoverflowitem (menu.go 493-515): when overflowing, test the target
against the top indicator row, then against the bottom indicator row that
sits below the visible items. -/
def isoverflowitem [Inhabited T] (cfg : Config) (m : MMenu T) (target : Int) :
    OverflowItem :=
  if m.core.overflow = -1 then .none
  else
    let y0 := cfg.borderSize
    let topI : ItemCore T := makeOverflowI cfg true
    if y0 ≤ target ∧ target < y0 + topI.h then .top
    else
      let y1 := y0 + topI.h + ((visibleSeq cfg m false).map (fun p => p.2.h)).sum
      let botI : ItemCore T := makeOverflowI cfg false
      if y1 ≤ target ∧ target < y1 + botI.h then .bottom
      else .none

/-! ## itemcycle (menu.go 518-564) -/

/-- The cycle directions (ctxmenu.go 32-37). -/
inductive Dir where
  | prev
  | next
  | first
  | last
deriving DecidableEq, Repr

/-- The separator-skipping loop of itemcycle for First (menu.go 547-549):
advance while in range and the label is empty; can exit at
`labels.length`. -/
def skipFwd (labels : List String) (i : Nat) : Nat :=
  if h : i < labels.length then
    if labels.get ⟨i, h⟩ = "" then skipFwd labels (i + 1) else i
  else i
termination_by labels.length - i
decreasing_by omega

/-- The separator-skipping loop of itemcycle for Last (menu.go 555-557):
retreat while at a nonnegative in-range index with empty label; can exit
at -1. -/
def skipBwd (labels : List String) (i : Int) : Int :=
  if h : 0 ≤ i ∧ i < (labels.length : Int) then
    if labels.get ⟨i.toNat, by omega⟩ = "" then skipBwd labels (i - 1) else i
  else i
termination_by (i + 1).toNat
decreasing_by omega

/-- itemcycle (menu.go 518-564) on the label list and the selected index.
The separator skip runs only for First and Last (the Next and Prev cases of
the Go switch are empty, there is no fallthrough). After the skip loop the
code reads `menu.items[item]`, which is an index-out-of-range panic when
the loop ran off the end; the panic is modelled as `Option.none`. -/
def itemcycleL (labels : List String) (selected : Int) (direction : Dir) : Option Int :=
  let len : Int := labels.length
  let item : Int :=
    match direction with
    | .next => if selected = -1 then 0 else if selected < len - 1 then selected + 1 else -1
    | .prev => if selected = -1 then len - 1 else if selected ≥ 0 then selected - 1 else -1
    | .first => 0
    | .last => len - 1
  match direction with
  | .next => some item
  | .prev => some item
  | .first =>
    let j := skipFwd labels item.toNat
    if h : j < labels.length then
      if labels.get ⟨j, h⟩ = "" then some 0 else some (j : Int)
    else Option.none
  | .last =>
    let j := skipBwd labels item
    if h : 0 ≤ j ∧ j < (labels.length : Int) then
      if labels.get ⟨j.toNat, by omega⟩ = "" then some (len - 1) else some j
    else Option.none

/-- itemcycle on a menu: the labels are the item labels, the index is the
selected field. -/
def MMenu.itemcycle (m : MMenu T) (direction : Dir) : Option Int :=
  itemcycleL (m.items.map (fun it => it.core.label)) m.core.selected direction

/-! ## matchitem (menu.go 567-616) -/

/-- The inner loop of matchitem (menu.go 596-600): compare every nonempty
suffix of the label against the text; true iff some nonempty suffix equals
the text. -/
def goSuffixHit : List Char → List Char → Bool
  | [], _ => false
  | c :: rest, text => ((c :: rest : List Char) == text) || goSuffixHit rest text

/-- The upward scan of matchitem for dirinc = +1, from a nonnegative start
index: return the first index at or above `i` whose label has a suffix
equal to `text`, or -1 past the end. -/
def scanUpN (labels : List String) (text : List Char) (i : Nat) : Int :=
  if h : i < labels.length then
    if goSuffixHit (labels.get ⟨i, h⟩).toList text then (i : Int)
    else scanUpN labels text (i + 1)
  else -1
termination_by labels.length - i
decreasing_by omega

/-- The Go scan loop `for ; item >= 0 && item < len; item += 1`: a negative
start index exits at once with -1. -/
def scanUpI (labels : List String) (text : List Char) (s : Int) : Int :=
  if s < 0 then -1 else scanUpN labels text s.toNat

/-- The downward scan of matchitem for dirinc = -1, from an in-range index:
return the first index at or below `i` whose label has a suffix equal to
`text`, or -1 below 0. -/
def scanDownN (labels : List String) (text : List Char) (i : Nat) : Int :=
  if h : i < labels.length then
    if goSuffixHit (labels.get ⟨i, h⟩).toList text then (i : Int)
    else if hz : i = 0 then -1
    else scanDownN labels text (i - 1)
  else -1
termination_by i
decreasing_by omega

/-- The Go scan loop `for ; item >= 0 && item < len; item += -1`: a start
index outside [0, len) exits at once with -1. -/
def scanDownI (labels : List String) (text : List Char) (s : Int) : Int :=
  if 0 ≤ s ∧ s < (labels.length : Int) then scanDownN labels text s.toNat else -1

/-- matchitem (menu.go 567-616) on the label list and selected index: pick
a start index next to the selection, scan in the direction once, then
rescan from the boundary (for dir = 0 the rescan starts at the end with an
upward step, so it only revisits the last label). -/
def matchitemL (labels : List String) (selected : Int) (text : List Char) (dir : Int) : Int :=
  let len : Int := labels.length
  if dir < 0 then
    let start := if selected ≠ -1 ∧ selected > 0 then selected - 1 else len - 1
    let r := scanDownI labels text start
    if r ≠ -1 then r else scanDownI labels text (len - 1)
  else if dir > 0 then
    let start := if selected ≠ -1 ∧ selected < len - 1 then selected + 1 else 0
    let r := scanUpI labels text start
    if r ≠ -1 then r else scanUpI labels text 0
  else
    let r := scanUpI labels text 0
    if r ≠ -1 then r else scanUpI labels text (len - 1)

/-- matchitem on a menu. -/
def MMenu.matchitem (m : MMenu T) (text : String) (dir : Int) : Int :=
  matchitemL (m.items.map (fun it => it.core.label)) m.core.selected text.toList dir

/-! ## Event handlers of the Run loop (ctxmenu.go 254-484) -/

/-- The PointerAxisEvent case of Run (ctxmenu.go 329-344): only the
horizontal-scroll axis is handled; nothing happens without overflow; a
negative value moves `first` down clamped at 0, a positive value moves it
up clamped at `len - overflow`; a zero value does nothing. -/
def handleAxis (m : MMenu T) (horizontal : Bool) (value : Int) : MMenu T :=
  if ¬horizontal then m
  else if m.core.overflow = -1 then m
  else if value < 0 then m.setCore { m.core with first := max (m.core.first - 1) 0 }
  else if value > 0 then
    m.setCore { m.core with first := min (m.core.first + 1) ((m.items.length : Int) - m.core.overflow) }
  else m

/-- Outcome of a button press in Run (ctxmenu.go 345-380). `exitZero` is
the bare `return` on a separator click, which leaves Run with the zero
value of T and a nil error; `openSub` records that the submenu of item
`idx` becomes the current menu. -/
inductive BtnOutcome (T : Type) where
  | noAction
  | exitZero
  | success (out : T)
  | openSub (idx : Nat)
deriving DecidableEq, Repr

/-- The PointerButtonEvent case of Run (ctxmenu.go 345-380), as its effect
on the current menu plus the loop outcome: a press over no item clears the
selection and resets `first`; a press on an indicator scrolls by one,
clamped; a press on a separator leaves the loop with the zero value; a
press on an item with a submenu descends; otherwise the loop returns the
item output. -/
def handleButton [Inhabited T] (cfg : Config) (m : MMenu T) (pressed : Bool)
    (curY : Int) : MMenu T × BtnOutcome T :=
  if ¬pressed then (m, .noAction)
  else
    let item := getitem cfg m curY
    let ovitem := isoverflowitem cfg m curY
    if item = -1 ∧ ovitem = .none then
      (m.setCore { m.core with selected := -1, first := 0 }, .noAction)
    else if ovitem = .top then
      (m.setCore { m.core with first := max (m.core.first - 1) 0 }, .noAction)
    else if ovitem = .bottom then
      (m.setCore { m.core with first := min (m.core.first + 1) ((m.items.length : Int) - m.core.overflow) }, .noAction)
    else if h : 0 ≤ item ∧ item.toNat < m.items.length then
      let it := m.items.get ⟨item.toNat, h.2⟩
      if it.core.label = "" then (m, .exitZero)
      else
        match it.submenu with
        | some _ => (m, .openSub item.toNat)
        | Option.none => (m, .success it.core.output)
    else (m, .noAction)

/-- The KeyboardKeyEvent case of Run (ctxmenu.go 385-471): after the
pressed-state guard the handler only prints the key; the entire keyboard
navigation block (Home/End/Tab/arrows/digits/Return/Escape and the
type-ahead buffer) is commented out in the source. The handler therefore
never changes the menu state, never sets an action and never terminates
the loop; the `Option T` outcome is always `none`. -/
def handleKey (m : MMenu T) (pressed : Bool) (key : Nat) : MMenu T × Option T :=
  (m, Option.none)

/-! ## Per-menu operations of the engine, for the state invariant -/

/-- The mutations the engine applies to an individual menu: appending an
item (AppendItem, reached from Append), the dirty geometry recompute and
the repositioning of show, the scroll adjustments of the axis and button
handlers, the click-over-nothing reset, the pointer-motion selection
update, the `selected = 0` assignment when a menu is entered as a submenu,
and the setSubmenu graft performed by Append on the tail item. -/
inductive MOp (T : Type) where
  | append (label : String) (output : T) (img : String)
  | layout
  | scrollUp
  | scrollDown
  | clickVoid
  | motion (y : Int)
  | selectZero
  | reposition (x y : Int)
  | graft
deriving Repr

/-- Apply one engine operation to one menu (see `MOp`). Each branch is the
effect the corresponding source code has on the menu it touches:
`append` is AppendItem (menu.go 177-185); `layout`/`reposition` are show
(menu.go 260-284 and 286-322); `scrollUp`/`scrollDown` are the clamped
adjustments of ctxmenu.go 336-343 and 358-365, guarded by overflow as at
ctxmenu.go 333 (and by isoverflowitem returning none without overflow);
`clickVoid` is ctxmenu.go 352-356; `motion` is ctxmenu.go 302-316;
`selectZero` is ctxmenu.go 376; `graft` is setSubmenu on the tail item
plus the parent-width update (menu.go 94-97, 187-191). -/
def applyMOp [Inhabited T] (cfg : Config) (m : MMenu T) : MOp T → MMenu T
  | .append label output img => (appendItemM cfg m label output img).1
  | .layout => applyLayout cfg m
  | .scrollUp =>
    if m.core.overflow = -1 then m
    else m.setCore { m.core with first := max (m.core.first - 1) 0 }
  | .scrollDown =>
    if m.core.overflow = -1 then m
    else m.setCore { m.core with first := min (m.core.first + 1) ((m.items.length : Int) - m.core.overflow) }
  | .clickVoid => m.setCore { m.core with selected := -1, first := 0 }
  | .motion y =>
    let i := getitem cfg m y
    if h : 0 ≤ i ∧ i.toNat < m.items.length then
      let it := m.items.get ⟨i.toNat, h.2⟩
      m.setCore { m.core with selected := if it.core.label = "" then -1 else i }
    else m
  | .selectZero => m.setCore { m.core with selected := 0 }
  | .reposition a b => m.setCore { m.core with x := a, y := b }
  | .graft =>
    match m.items.getLast? with
    | Option.none => m
    | some tail =>
      match tail.submenu with
      | some _ => m
      | Option.none =>
        let tail1 := setSubmenuI cfg tail makeMenu
        MMenu.mk { m.core with w := max m.core.w tail1.core.w }
          (m.items.dropLast ++ [tail1])

/-- The per-menu navigation state invariant, amended for the states the
code actually reaches: a menu with no items (as produced by MakeMenu or by
the submenu graft of a failed deep Append) carries the Go zero value
`selected = 0`; a menu with items has `selected` equal to -1 or a valid
index; without overflow `first` is 0; with overflow `first` stays within
`[0, len - overflow]`. -/
def navInv (m : MMenu T) : Prop :=
  (m.core.selected = -1 ∨
    (0 ≤ m.core.selected ∧
      (m.core.selected < (m.items.length : Int) ∨
        (m.items.length = 0 ∧ m.core.selected = 0)))) ∧
  (m.core.overflow = -1 → m.core.first = 0) ∧
  (m.core.overflow ≠ -1 →
    0 ≤ m.core.first ∧ m.core.first ≤ (m.items.length : Int) - m.core.overflow)

/-! ## Shared-memory buffer lifecycle (menu.go 632-669) -/

/-- The buffer-lifecycle events a surface sees: openFile creating the pool
(menu.go 632-654), a redraw (draw/drawFrame, menu.go 434-457 and 656-669),
and the asynchronous buffer release from the compositor (the OnRelease
handler, menu.go 662-665). -/
inductive SurfEvent where
  | openPool
  | redraw
  | release
deriving DecidableEq, Repr

/-- The buffer-accounting state of one surface: whether the shm pool
exists, and how many buffers are attached and not yet released. -/
structure SurfState where
  hasPool : Bool
  outstanding : Nat
deriving DecidableEq, Repr

/-- Before openFile there is no pool and nothing attached. -/
def surfInit : SurfState := { hasPool := false, outstanding := 0 }

/-- The buffer discipline of the code: drawFrame (menu.go 656-669) returns
early when the pool is nil, and otherwise unconditionally creates a fresh
buffer over the pool and attaches it; there is no check that a previously
attached buffer has been released, so a redraw always increments the
outstanding count. A release event destroys one outstanding buffer. -/
def stepSurf (s : SurfState) : SurfEvent → SurfState
  | .openPool => { s with hasPool := true }
  | .redraw => if s.hasPool then { s with outstanding := s.outstanding + 1 } else s
  | .release => { s with outstanding := s.outstanding - 1 }

/-- The surface state after a sequence of events. -/
def runSurf (evs : List SurfEvent) : SurfState := evs.foldl stepSurf surfInit

/-! ## Concrete fixtures used by counterexamples and witnesses -/

/-- A plain configuration: text width is the character count, icons never
decode, sizes are small positive values, the display ends at (100, 200). -/
def cfg0 : Config :=
  { minItemWidth := 3
    borderSize := 1
    seperatorLength := 1
    iconSize := 4
    paddingX := 1
    paddingY := 1
    fontHeight := 10
    arrowW := 2
    arrowH := 2
    rightArrowW := 2
    monMaxX := 100
    monMaxY := 200
    textWidth := fun s => s.length
    decodeOk := fun _ => false
    disableIcons := false }

/-- The scenario configuration of the specification: border 0 and a 50px
display bottom. -/
def cfg9 : Config := { cfg0 with borderSize := 0, monMaxY := 50 }

/-- A root menu holding the single item "a". -/
def root1 : MMenu Int := (appendItemM cfg0 makeMenu "a" 7 "").1

/-- A menu whose single item is a separator, built through AppendItem. -/
def mSep : MMenu Int := (appendItemM cfg0 makeMenu "" 0 "").1

/-- A separator followed by the labeled item "a", built through
AppendItem. -/
def mSepA : MMenu Int := (appendItemM cfg0 mSep "a" 1 "").1

/-- Two labeled items "a" and "b", built through AppendItem. -/
def mAB : MMenu Int := (appendItemM cfg0 (appendItemM cfg0 makeMenu "a" 1 "").1 "b" 2 "").1

/-- `mAB` with the last item selected. -/
def mAB1 : MMenu Int := mAB.setCore { mAB.core with selected := 1 }

/-- A 20px-tall labeled item. -/
def it20 : ItemCore Int :=
  { label := "x", output := 1, w := 5, h := 20, hasIcon := false, overflower := .none }

/-- The overflow scenario menu: three 20px items inside the 50px display of
`cfg9`; the geometry fields are exactly those `layoutGeometry` computes
(overflow = 2, first = 0). -/
def m9 : MMenu Int :=
  .mk { first := 0, selected := -1, overflow := 2, x := 0, y := 0, w := 5, h := 48,
        itemsChanged := false }
    [.mk it20 Option.none, .mk it20 Option.none, .mk it20 Option.none]

/-- A one-item non-overflowing menu for the activation witness. -/
def m6 : MMenu Int :=
  .mk { first := 0, selected := -1, overflow := -1, x := 0, y := 0, w := 5, h := 22,
        itemsChanged := false }
    [.mk it20 Option.none]

/-- The selected-index and item-count of the submenu of the last item, when
both exist. -/
def lastSubState (m : MMenu T) : Option (Int × Nat) :=
  (m.items.getLast?).bind fun it =>
    it.submenu.map fun s => (s.core.selected, s.items.length)

/-! ## Small structural lemmas -/

theorem MMenu.setCore_core (m : MMenu T) (c : MenuCore) : (m.setCore c).core = c := by
  cases m; rfl

theorem MMenu.setCore_items (m : MMenu T) (c : MenuCore) : (m.setCore c).items = m.items := by
  cases m; rfl

theorem MMenu.core_mk (c : MenuCore) (its : List (MItem T)) :
    (MMenu.mk c its).core = c := rfl

theorem MMenu.items_mk (c : MenuCore) (its : List (MItem T)) :
    (MMenu.mk c its).items = its := rfl

theorem menuEntries_mk (c : MenuCore) (its : List (MItem T)) :
    menuEntries (MMenu.mk c its) = itemsEntries its := by
  rfl

theorem menuCount_mk (c : MenuCore) (its : List (MItem T)) :
    menuCount (MMenu.mk c its) = 1 + itemsMenuCount its := by
  rfl

theorem itemsEntries_concat (ys : List (MItem T)) (x : MItem T) :
    itemsEntries (ys ++ [x]) = itemsEntries ys ++ itemEntries x := by
  induction ys with
  | nil => simp [itemsEntries]
  | cons a rest ih => simp [itemsEntries, ih]

theorem itemsMenuCount_concat (ys : List (MItem T)) (x : MItem T) :
    itemsMenuCount (ys ++ [x]) = itemsMenuCount ys + itemMenuCount x := by
  induction ys with
  | nil => simp [itemsMenuCount]
  | cons a rest ih => simp [itemsMenuCount, ih]; omega

/-! ## C1: buffer lifecycle -/

/-- C1: the claim says the number of attached-but-unreleased buffers per
surface never exceeds 1 and that a new buffer is attached only after the
previous release arrived. The code has no such gate: drawFrame
unconditionally creates and attaches a fresh buffer whenever the pool
exists, so two redraws with no release in between leave two outstanding
buffers. -/
theorem C1_second_attach_while_unreleased :
    (runSurf [SurfEvent.openPool, SurfEvent.redraw, SurfEvent.redraw]).outstanding = 2 ∧
    1 < (runSurf [SurfEvent.openPool, SurfEvent.redraw, SurfEvent.redraw]).outstanding := by
  refine ⟨rfl, by decide⟩

/-! ## C5: itemcycle First/Last and separators -/

/-- C5: the claim says cycle(First) falls back to index 0 when every item
from the front is a separator (and Last to len-1 from the back). In the
code the skip loop can run off the end of the item list and the subsequent
`menu.items[item]` read is an index-out-of-range panic (modelled as none);
the fallback assignment is unreachable. The positive half of the claim
does hold: on a separator followed by a labeled item, First lands on the
labeled item. -/
theorem C5_itemcycle_all_separators_panics :
    mSep.itemcycle .first = Option.none ∧
    mSep.itemcycle .last = Option.none ∧
    mSepA.itemcycle .first = some 1 := by
  refine ⟨?_, ?_, ?_⟩ <;>
    simp [MMenu.itemcycle, itemcycleL, mSep, mSepA, makeMenu, appendItemM, makeItem,
          cfg0, MMenu.core, MMenu.items, MItem.core, MItem.submenu, skipFwd, skipBwd]

/-! ## C10: the fresh menu before the first show -/

/-- C10: a menu fresh from MakeMenu has the Go zero value overflow = 0
(not -1), so it is treated as overflowing with an empty visible window:
visibleItems yields exactly the two synthetic indicator entries and no
regular item. -/
theorem C10_fresh_menu_overflow_zero (T : Type) [Inhabited T] (cfg : Config) :
    (makeMenu : MMenu T).core.overflow = 0 ∧
    (makeMenu : MMenu T).core.overflow ≠ -1 ∧
    visibleSeq cfg (makeMenu : MMenu T) true =
      [((-1 : Int), makeOverflowI cfg true), ((-1 : Int), makeOverflowI cfg false)] := by
  refine ⟨rfl, ?_, rfl⟩
  intro h
  have h0 : (makeMenu : MMenu T).core.overflow = 0 := rfl
  omega

/-! ## Counterexamples for C2, C3, C4, C8 -/

/-- C2 counterexample: on a root with one item and no submenu, Append at
depth 2 fails with the depth error, but the tree is not left unchanged: a
new empty submenu now hangs under the item (the menu count grew from 1 to
2), refuting the claim that after the failed call no new submenus exist. -/
theorem C2_failed_append_grafts_submenu :
    (appendGo cfg0 root1 "b" 8 "" 2).2 = true ∧
    menuCount (appendGo cfg0 root1 "b" 8 "" 2).1 = 2 ∧
    menuCount root1 = 1 := by
  refine ⟨rfl, ?_, ?_⟩ <;>
    simp [appendGo, appendItemM, makeItem, root1, makeMenu, cfg0, setSubmenuI,
          MMenu.core, MMenu.items, MItem.core, MItem.submenu,
          menuCount, itemsMenuCount, itemMenuCount]

/-- C3 counterexample: the empty submenu grafted by the failed depth-2
Append is an engine-produced menu state whose selected field is the Go
zero value 0 while its item list is empty, so `selected` is neither -1 nor
a valid index into items, refuting the claimed invariant. -/
theorem C3_failed_append_breaks_selected_invariant :
    lastSubState (appendGo cfg0 root1 "b" 8 "" 2).1 = some (0, 0) := by
  simp [appendGo, appendItemM, makeItem, root1, makeMenu, cfg0, setSubmenuI,
        lastSubState, MMenu.core, MMenu.items, MItem.core, MItem.submenu]

/-- C4 counterexample: the label "ab" starts with the prefix "a", yet
matchitem returns -1 on it, because the inner loop of the code compares
the suffixes of the label with the text, not its prefixes. -/
theorem C4_prefix_not_matched :
    matchitemL ["ab"] (-1) ("a".toList) 0 = -1 ∧
    ("a".toList <+: "ab".toList) := by
  constructor
  · simp [matchitemL, scanUpI, scanUpN, scanDownI, scanDownN, goSuffixHit]
  · exact ⟨['b'], rfl⟩

/-- C8 counterexample: cycling Next with the last item selected does not
leave the selection unchanged; itemcycle yields -1 (no selection), which
the loop would assign to selected. -/
theorem C8_next_from_last_yields_minus_one :
    mAB1.itemcycle .next = some (-1) ∧ ((-1 : Int) = 1 → False) := by
  constructor
  · simp [MMenu.itemcycle, itemcycleL, mAB1, mAB, makeMenu, appendItemM, makeItem,
          cfg0, MMenu.core, MMenu.items, MMenu.setCore, MItem.core]
  · omega

/-! ## C8: cycle boundary behavior (amended) -/

/-- C8 (amended): on a non-empty menu, Next from the last index yields -1
(no selection, not an unchanged selection and no wraparound); Prev from -1
yields len-1; Next from -1 yields 0; Next from an index below len-1 yields
the successor. -/
theorem C8_cycle_boundaries (m : MMenu T) (h0 : 0 < m.items.length) :
    (m.core.selected = (m.items.length : Int) - 1 → m.itemcycle .next = some (-1)) ∧
    (m.core.selected = -1 → m.itemcycle .prev = some ((m.items.length : Int) - 1)) ∧
    (m.core.selected = -1 → m.itemcycle .next = some 0) ∧
    (0 ≤ m.core.selected → m.core.selected < (m.items.length : Int) - 1 →
      m.itemcycle .next = some (m.core.selected + 1)) := by
  have hlen : ((m.items.map fun it => it.core.label).length : Int) = (m.items.length : Int) := by
    simp
  refine ⟨?_, ?_, ?_, ?_⟩
  · intro h
    simp only [MMenu.itemcycle, itemcycleL, hlen]
    rw [if_neg (by omega), if_neg (by omega)]
  · intro h
    simp only [MMenu.itemcycle, itemcycleL, hlen]
    rw [if_pos h]
  · intro h
    simp only [MMenu.itemcycle, itemcycleL, hlen]
    rw [if_pos h]
  · intro h1 h2
    simp only [MMenu.itemcycle, itemcycleL, hlen]
    rw [if_neg (by omega), if_pos (by omega)]

theorem C8_cycle_boundaries_witness :
    0 < mAB.items.length ∧ mAB.itemcycle .next = some (mAB.core.selected + 1) :=
  ⟨by decide, (C8_cycle_boundaries mAB (by decide)).2.2.2 (by decide) (by decide)⟩

/-! ## C3: the navigation invariant (amended) -/

theorem overflowScan_result (maxY : Int) (l : List (Nat × ItemCore T)) :
    ∀ (w h : Int),
      (overflowScan maxY l w h).2.2 = -1 ∨
      ∃ p ∈ l, (overflowScan maxY l w h).2.2 = (p.1 : Int) := by
  induction l with
  | nil => intro w h; left; rfl
  | cons p rest ih =>
    intro w h
    rcases p with ⟨i, c⟩
    by_cases hc : c.h + h > maxY
    · right
      exact ⟨(i, c), List.mem_cons_self _ _, by simp [overflowScan, hc]⟩
    · rcases ih (max w c.w) (h + c.h) with h1 | ⟨q, hq, he⟩
      · left; simpa [overflowScan, hc] using h1
      · right; exact ⟨q, List.mem_cons_of_mem _ hq, by simpa [overflowScan, hc] using he⟩

theorem layoutGeometry_first (cfg : Config) (items : List (ItemCore T)) :
    (layoutGeometry cfg items).first = 0 := by
  simp only [layoutGeometry]
  split <;> rfl

theorem layoutGeometry_overflow_bound (cfg : Config) (items : List (ItemCore T)) :
    (layoutGeometry cfg items).overflow = -1 ∨
    (0 ≤ (layoutGeometry cfg items).overflow ∧
      (layoutGeometry cfg items).overflow < (items.length : Int)) := by
  simp only [layoutGeometry]
  split
  · rcases overflowScan_result cfg.monMaxY items.enum
        (items.foldl (fun w c => max w c.w) (cfg.borderSize * 2 + cfg.minItemWidth))
        ((cfg.arrowH + cfg.paddingY * 2 + cfg.borderSize) * 2) with h1 | ⟨p, hp, he⟩
    · left; exact h1
    · right
      have hb := List.mem_enumFrom (show p ∈ items.enumFrom 0 from hp)
      dsimp only
      rw [he]
      omega
  · left; rfl

/-- Any single engine operation preserves the (amended) navigation
invariant of the menu it is applied to. -/
theorem applyMOp_navInv [Inhabited T] (cfg : Config) (m : MMenu T) (op : MOp T)
    (h : navInv m) : navInv (applyMOp cfg m op) := by
  obtain ⟨mc, mits⟩ := m
  simp only [navInv, MMenu.core_mk, MMenu.items_mk] at h
  obtain ⟨h1, h2, h3⟩ := h
  cases op with
  | append label output img =>
    dsimp only [applyMOp, appendItemM]
    cases hmi : makeItem cfg label output img with
    | error e =>
      simp only [navInv, MMenu.core_mk, MMenu.items_mk]
      omega
    | ok c =>
      simp only [navInv, MMenu.core_mk, MMenu.items_mk, List.length_append,
        List.length_singleton]
      push_cast
      omega
  | layout =>
    dsimp only [applyMOp, applyLayout, MMenu.core_mk, MMenu.items_mk, MMenu.setCore]
    split
    · have hf := layoutGeometry_first cfg (mits.map MItem.core)
      have hb := layoutGeometry_overflow_bound cfg (mits.map MItem.core)
      rw [List.length_map] at hb
      simp only [navInv, MMenu.core_mk, MMenu.items_mk]
      omega
    · simp only [navInv, MMenu.core_mk, MMenu.items_mk]
      omega
  | scrollUp =>
    dsimp only [applyMOp, MMenu.core_mk, MMenu.items_mk, MMenu.setCore]
    split
    · simp only [navInv, MMenu.core_mk, MMenu.items_mk]
      omega
    · simp only [navInv, MMenu.core_mk, MMenu.items_mk]
      omega
  | scrollDown =>
    dsimp only [applyMOp, MMenu.core_mk, MMenu.items_mk, MMenu.setCore]
    split
    · simp only [navInv, MMenu.core_mk, MMenu.items_mk]
      omega
    · simp only [navInv, MMenu.core_mk, MMenu.items_mk]
      omega
  | clickVoid =>
    dsimp only [applyMOp, MMenu.core_mk, MMenu.items_mk, MMenu.setCore]
    refine ⟨Or.inl rfl, fun _ => rfl, fun hov => ?_⟩
    have h4 := h3 hov
    refine ⟨le_refl 0, ?_⟩
    show (0 : Int) ≤ (mits.length : Int) - mc.overflow
    omega
  | motion y =>
    dsimp only [applyMOp, MMenu.core_mk, MMenu.items_mk, MMenu.setCore]
    split
    · next hg =>
      simp only [navInv, MMenu.core_mk, MMenu.items_mk]
      split <;> omega
    · simp only [navInv, MMenu.core_mk, MMenu.items_mk]
      omega
  | selectZero =>
    dsimp only [applyMOp, MMenu.core_mk, MMenu.items_mk, MMenu.setCore]
    refine ⟨Or.inr ⟨le_refl 0, ?_⟩, fun hov => h2 hov, fun hov => h3 hov⟩
    show (0 : Int) < (mits.length : Int) ∨ (mits.length = 0 ∧ (0 : Int) = 0)
    omega
  | reposition a b =>
    dsimp only [applyMOp, MMenu.core_mk, MMenu.items_mk, MMenu.setCore]
    simp only [navInv, MMenu.core_mk, MMenu.items_mk]
    omega
  | graft =>
    dsimp only [applyMOp, MMenu.core_mk, MMenu.items_mk]
    cases hl : mits.getLast? with
    | none =>
      simp only [navInv, MMenu.core_mk, MMenu.items_mk]
      omega
    | some tail =>
      cases hs : tail.submenu with
      | some sub =>
        simp only [hs, navInv, MMenu.core_mk, MMenu.items_mk]
        omega
      | none =>
        obtain ⟨ys, hys⟩ := List.getLast?_eq_some_iff.mp hl
        have hlen : (mits.dropLast ++ [setSubmenuI cfg tail makeMenu]).length
            = mits.length := by
          rw [hys]
          simp
        simp only [hs, navInv, MMenu.core_mk, MMenu.items_mk, hlen]
        omega

theorem navInv_makeMenu : navInv (makeMenu : MMenu T) := by
  simp only [navInv, makeMenu, MMenu.core_mk, MMenu.items_mk]
  norm_num

theorem foldl_navInv [Inhabited T] (cfg : Config) (ops : List (MOp T)) :
    ∀ m : MMenu T, navInv m → navInv (ops.foldl (applyMOp cfg) m) := by
  induction ops with
  | nil => intro m hm; exact hm
  | cons op rest ih =>
    intro m hm
    exact ih _ (applyMOp_navInv cfg m op hm)

/-- C3 (amended): starting from a fresh menu, after any sequence of engine
operations on that menu the state satisfies: `selected` is -1 or a valid
index whenever the menu has items (a menu with no items carries the Go
zero value selected = 0); `overflow = -1` implies `first = 0`; and
`overflow` different from -1 implies `0 ≤ first ≤ len(items) - overflow`. -/
theorem C3_nav_invariant_reachable (T : Type) [Inhabited T] (cfg : Config)
    (ops : List (MOp T)) :
    navInv (ops.foldl (applyMOp cfg) makeMenu) :=
  foldl_navInv cfg ops makeMenu navInv_makeMenu

/-! ## C2: deep Append failure (amended) -/

theorem menuEntries_makeMenu : menuEntries (makeMenu : MMenu T) = [] := rfl

theorem menuCount_makeMenu : menuCount (makeMenu : MMenu T) = 1 := rfl

/-- C2 (amended): when the requested depth exceeds the walkable chain, the
call fails with the depth error and appends no item anywhere: the (label,
output) entries of the whole tree are unchanged. The tree is however not
entirely unchanged: at most one new empty submenu may have been grafted
under the tail item on the way (the menu count grows by at most one). -/
theorem C2_deep_append_fails_without_new_items (cfg : Config) (label : String)
    (out : T) (img : String) :
    ∀ (d : Nat) (m : MMenu T), chainOk m d = false →
      (appendGo cfg m label out img d).2 = true ∧
      menuEntries (appendGo cfg m label out img d).1 = menuEntries m ∧
      menuCount (appendGo cfg m label out img d).1 ≤ menuCount m + 1 := by
  intro d
  induction d with
  | zero =>
    intro m hc
    simp [chainOk] at hc
  | succ e ih =>
    intro m hc
    cases m with
    | mk mc mits =>
      simp only [chainOk, MMenu.items_mk] at hc
      simp only [appendGo, MMenu.items_mk]
      cases hl : mits.getLast? with
      | none =>
        simp only [hl] at hc ⊢
        exact ⟨trivial, trivial, Nat.le_succ _⟩
      | some tail =>
        obtain ⟨ys, hys⟩ := List.getLast?_eq_some_iff.mp hl
        simp only [hl] at hc ⊢
        cases hs : tail.submenu with
        | some sub =>
          simp only [hs] at hc ⊢
          obtain ⟨hr2, hr1, hrc⟩ := ih sub hc
          subst hys
          refine ⟨hr2, ?_, ?_⟩
          · simp only [menuEntries_mk, List.dropLast_concat, itemsEntries_concat]
            have htail : itemEntries (MItem.mk tail.core (some (appendGo cfg sub label out img e).1))
                = itemEntries tail := by
              cases tail with
              | mk tc ts =>
                simp only [MItem.submenu] at hs
                subst hs
                simp only [itemEntries, hr1, MItem.core]
            rw [htail]
          · simp only [menuCount_mk, List.dropLast_concat, itemsMenuCount_concat]
            have htail : itemMenuCount (MItem.mk tail.core (some (appendGo cfg sub label out img e).1))
                = menuCount (appendGo cfg sub label out img e).1 := rfl
            have htail2 : itemMenuCount tail = menuCount sub := by
              cases tail with
              | mk tc ts =>
                simp only [MItem.submenu] at hs
                subst hs
                rfl
            rw [htail, htail2]
            omega
        | none =>
          simp only [hs] at hc ⊢
          have he : e ≠ 0 := by
            intro h0
            rw [h0] at hc
            simp at hc
          obtain ⟨e1, he1⟩ := Nat.exists_eq_succ_of_ne_zero he
          subst he1
          have hrec : appendGo cfg (makeMenu : MMenu T) label out img (e1 + 1)
              = (makeMenu, true) := by
            simp [appendGo, makeMenu, MMenu.items_mk]
          rw [hrec]
          subst hys
          refine ⟨rfl, ?_, ?_⟩
          · simp only [menuEntries_mk, List.dropLast_concat, itemsEntries_concat]
            have htail : itemEntries (MItem.mk (setSubmenuI cfg tail makeMenu).core (some makeMenu))
                = itemEntries tail := by
              cases tail with
              | mk tc ts =>
                simp only [MItem.submenu] at hs
                subst hs
                simp [itemEntries, setSubmenuI, MItem.core, menuEntries_makeMenu,
                  menuEntries, makeMenu, itemsEntries]
            rw [htail]
          · simp only [menuCount_mk, List.dropLast_concat, itemsMenuCount_concat]
            have htail : itemMenuCount (MItem.mk (setSubmenuI cfg tail makeMenu).core (some makeMenu))
                = 1 := rfl
            have htail2 : itemMenuCount tail = 0 := by
              cases tail with
              | mk tc ts =>
                simp only [MItem.submenu] at hs
                subst hs
                rfl
            rw [htail, htail2]
            omega

theorem C2_deep_append_fails_without_new_items_witness :
    chainOk root1 2 = false ∧
    (appendGo cfg0 root1 "b" 8 "" 2).2 = true ∧
    menuEntries (appendGo cfg0 root1 "b" 8 "" 2).1 = menuEntries root1 ∧
    menuCount (appendGo cfg0 root1 "b" 8 "" 2).1 ≤ menuCount root1 + 1 :=
  ⟨by simp [chainOk, root1, appendItemM, makeItem, makeMenu, cfg0, MMenu.items,
      MItem.submenu],
   C2_deep_append_fails_without_new_items cfg0 "b" 8 "" 2 root1
     (by simp [chainOk, root1, appendItemM, makeItem, makeMenu, cfg0, MMenu.items,
         MItem.submenu])⟩

/-! ## C7: overflow geometry of show -/

theorem foldl_add_height (l : List (ItemCore T)) :
    ∀ a : Int, l.foldl (fun h c => h + c.h) a = a + (l.map ItemCore.h).sum := by
  induction l with
  | nil => intro a; simp
  | cons c rest ih =>
    intro a
    simp only [List.foldl_cons, List.map_cons, List.sum_cons, ih]
    ring

theorem overflowScan_spec (maxY : Int) (l : List (ItemCore T)) :
    ∀ (n : Nat) (w acc : Int),
      (overflowScan maxY (l.enumFrom n) w acc).2.2 =
        (match specFirstExcluded maxY (l.map ItemCore.h) acc with
         | Option.none => (-1 : Int)
         | some i => ((n + i : Nat) : Int)) := by
  induction l with
  | nil => intro n w acc; rfl
  | cons c rest ih =>
    intro n w acc
    simp only [List.enumFrom_cons, List.map_cons, overflowScan, specFirstExcluded]
    by_cases hc : c.h + acc > maxY
    · rw [if_pos hc, if_pos (by omega : acc + c.h > maxY)]
      simp
    · rw [if_neg hc, if_neg (by omega : ¬acc + c.h > maxY),
        ih (n + 1) (max w c.w) (acc + c.h)]
      cases hr : specFirstExcluded maxY (rest.map ItemCore.h) (acc + c.h) with
      | none => rfl
      | some i =>
        simp only [Option.map_some']
        push_cast
        ring

theorem specFirstExcluded_isSome (maxY : Int) (hs : List Int) :
    ∀ acc : Int, hs ≠ [] → maxY < acc + hs.sum →
      (specFirstExcluded maxY hs acc).isSome := by
  induction hs with
  | nil => intro acc hne; exact absurd rfl hne
  | cons h rest ih =>
    intro acc hne hsum
    by_cases hc : acc + h > maxY
    · simp [specFirstExcluded, hc]
    · have hrne : rest ≠ [] := by
        intro h0
        subst h0
        simp only [List.sum_cons, List.sum_nil] at hsum
        omega
      have hrec := ih (acc + h) hrne (by
        simp only [List.sum_cons] at hsum
        omega)
      rw [Option.isSome_iff_exists] at hrec
      obtain ⟨j, hj⟩ := hrec
      simp [specFirstExcluded, if_neg hc, hj]

theorem specFirstExcluded_lt_length (maxY : Int) (hs : List Int) :
    ∀ (acc : Int) (i : Nat), specFirstExcluded maxY hs acc = some i → i < hs.length := by
  induction hs with
  | nil => intro acc i hi; simp [specFirstExcluded] at hi
  | cons h rest ih =>
    intro acc i hi
    by_cases hc : acc + h > maxY
    · simp only [specFirstExcluded, if_pos hc, Option.some.injEq] at hi
      simp [← hi]
    · simp only [specFirstExcluded, if_neg hc, Option.map_eq_some'] at hi
      obtain ⟨j, hj, hji⟩ := hi
      have := ih (acc + h) j hj
      simp only [List.length_cons]
      omega

/-- C7: for a dirty menu (so with at least one item), if the total content
height (2 borders plus the sum of item heights) fits under the display
bottom, the recomputed overflow is -1 regardless of the item count;
otherwise the overflow index is exactly the first item excluded by the
greedy accumulation that starts from the two reserved indicator rows, and
`first` is reset to 0 in both cases. -/
theorem C7_overflow_geometry (cfg : Config) (items : List (ItemCore T))
    (hne : items ≠ []) (hA : 0 ≤ cfg.arrowH) (hP : 0 ≤ cfg.paddingY) :
    (cfg.borderSize * 2 + (items.map ItemCore.h).sum ≤ cfg.monMaxY →
      (layoutGeometry cfg items).overflow = -1 ∧ (layoutGeometry cfg items).first = 0) ∧
    (cfg.monMaxY < cfg.borderSize * 2 + (items.map ItemCore.h).sum →
      (layoutGeometry cfg items).first = 0 ∧
      ∃ i : Nat,
        specFirstExcluded cfg.monMaxY (items.map ItemCore.h)
          ((cfg.arrowH + cfg.paddingY * 2 + cfg.borderSize) * 2) = some i ∧
        (layoutGeometry cfg items).overflow = (i : Int) ∧ i < items.length) := by
  have hh : items.foldl (fun h c => h + c.h) (cfg.borderSize * 2)
      = cfg.borderSize * 2 + (items.map ItemCore.h).sum := foldl_add_height items _
  constructor
  · intro hle
    have hcond : ¬(items.foldl (fun h c => h + c.h) (cfg.borderSize * 2) > cfg.monMaxY) := by
      omega
    simp only [layoutGeometry]
    rw [if_neg hcond]
    exact ⟨rfl, rfl⟩
  · intro hgt
    have hcond : items.foldl (fun h c => h + c.h) (cfg.borderSize * 2) > cfg.monMaxY := by
      omega
    simp only [layoutGeometry]
    rw [if_pos hcond]
    refine ⟨rfl, ?_⟩
    have hsome := specFirstExcluded_isSome cfg.monMaxY (items.map ItemCore.h)
      ((cfg.arrowH + cfg.paddingY * 2 + cfg.borderSize) * 2)
      (by simpa using hne)
      (by omega)
    obtain ⟨i, hi⟩ := Option.isSome_iff_exists.mp hsome
    refine ⟨i, hi, ?_, by simpa using specFirstExcluded_lt_length _ _ _ _ hi⟩
    have hscan := overflowScan_spec cfg.monMaxY items 0
      (items.foldl (fun w c => max w c.w) (cfg.borderSize * 2 + cfg.minItemWidth))
      ((cfg.arrowH + cfg.paddingY * 2 + cfg.borderSize) * 2)
    have henum : items.enum = items.enumFrom 0 := rfl
    rw [henum, hscan, hi]
    simp

theorem C7_overflow_geometry_witness :
    (layoutGeometry cfg9 [it20, it20, it20]).overflow = 2 ∧
    (layoutGeometry cfg9 [it20, it20, it20]).first = 0 := by
  have h := (C7_overflow_geometry cfg9 [it20, it20, it20] (by decide) (by decide)
    (by decide)).2 (by decide)
  obtain ⟨hf, i, hs, ho, hlt⟩ := h
  have hi : i = 2 := by
    have h2 : specFirstExcluded cfg9.monMaxY ([it20, it20, it20].map ItemCore.h)
        ((cfg9.arrowH + cfg9.paddingY * 2 + cfg9.borderSize) * 2) = some 2 := by
      simp [specFirstExcluded, cfg9, cfg0, it20]
    rw [h2] at hs
    exact (Option.some.injEq _ _).mp hs.symm
  subst hi
  exact ⟨ho, hf⟩


/-! ## C9: overflow scroll adjustment -/

/-- C9: in overflow mode with the invariant on `first`, a handled scroll
event or an indicator click moves `first` by exactly one in the
corresponding direction, clamped to `[0, len(items) - overflow]`: a
positive-value scroll or a bottom-indicator press sets `first` to
`min (first + 1) (len - overflow)` (so exactly +1 whenever not already at
the clamp), and a negative-value scroll or a top-indicator press sets it
to `max (first - 1) 0`; the result always stays inside the interval. -/
theorem C9_scroll_clamped_by_one (cfg : Config) (m : MMenu Int) (y value : Int)
    (hov : m.core.overflow ≠ -1)
    (h0 : 0 ≤ m.core.first)
    (h1 : m.core.first ≤ (m.items.length : Int) - m.core.overflow) :
    (0 < value →
      (handleAxis m true value).core.first
          = min (m.core.first + 1) ((m.items.length : Int) - m.core.overflow) ∧
      0 ≤ (handleAxis m true value).core.first ∧
      (handleAxis m true value).core.first ≤ (m.items.length : Int) - m.core.overflow ∧
      (m.core.first < (m.items.length : Int) - m.core.overflow →
        (handleAxis m true value).core.first = m.core.first + 1)) ∧
    (value < 0 →
      (handleAxis m true value).core.first = max (m.core.first - 1) 0 ∧
      0 ≤ (handleAxis m true value).core.first ∧
      (handleAxis m true value).core.first ≤ (m.items.length : Int) - m.core.overflow ∧
      (0 < m.core.first →
        (handleAxis m true value).core.first = m.core.first - 1)) ∧
    (isoverflowitem cfg m y = .bottom →
      (handleButton cfg m true y).1.core.first
          = min (m.core.first + 1) ((m.items.length : Int) - m.core.overflow) ∧
      0 ≤ (handleButton cfg m true y).1.core.first ∧
      (handleButton cfg m true y).1.core.first
          ≤ (m.items.length : Int) - m.core.overflow ∧
      (m.core.first < (m.items.length : Int) - m.core.overflow →
        (handleButton cfg m true y).1.core.first = m.core.first + 1)) ∧
    (isoverflowitem cfg m y = .top →
      (handleButton cfg m true y).1.core.first = max (m.core.first - 1) 0 ∧
      0 ≤ (handleButton cfg m true y).1.core.first ∧
      (handleButton cfg m true y).1.core.first
          ≤ (m.items.length : Int) - m.core.overflow ∧
      (0 < m.core.first →
        (handleButton cfg m true y).1.core.first = m.core.first - 1)) := by
  refine ⟨?_, ?_, ?_, ?_⟩
  · intro hv
    have he : handleAxis m true value
        = m.setCore { m.core with first := min (m.core.first + 1) ((m.items.length : Int) - m.core.overflow) } := by
      rw [handleAxis]
      rw [if_neg (by simp), if_neg hov, if_neg (by omega), if_pos hv]
    rw [he, MMenu.setCore_core]
    refine ⟨rfl, ?_, ?_, ?_⟩ <;> dsimp only <;> omega
  · intro hv
    have he : handleAxis m true value
        = m.setCore { m.core with first := max (m.core.first - 1) 0 } := by
      rw [handleAxis]
      rw [if_neg (by simp), if_neg hov, if_pos hv]
    rw [he, MMenu.setCore_core]
    refine ⟨rfl, ?_, ?_, ?_⟩ <;> dsimp only <;> omega
  · intro hb
    have he : (handleButton cfg m true y).1
        = m.setCore { m.core with first := min (m.core.first + 1) ((m.items.length : Int) - m.core.overflow) } := by
      rw [handleButton]
      rw [if_neg (by simp)]
      rw [if_neg (by simp [hb]), if_neg (by simp [hb]), if_pos hb]
    rw [he, MMenu.setCore_core]
    refine ⟨rfl, ?_, ?_, ?_⟩ <;> dsimp only <;> omega
  · intro hb
    have he : (handleButton cfg m true y).1
        = m.setCore { m.core with first := max (m.core.first - 1) 0 } := by
      rw [handleButton]
      rw [if_neg (by simp)]
      rw [if_neg (by simp [hb]), if_pos hb]
    rw [he, MMenu.setCore_core]
    refine ⟨rfl, ?_, ?_, ?_⟩ <;> dsimp only <;> omega

theorem C9_scroll_clamped_by_one_witness :
    (handleButton cfg9 m9 true 45).1.core.first = m9.core.first + 1 ∧
    (handleAxis m9 true 1).core.first = m9.core.first + 1 :=
  ⟨((C9_scroll_clamped_by_one cfg9 m9 45 1 (by decide) (by decide) (by decide)).2.2.1
      (by decide)).2.2.2 (by decide),
   ((C9_scroll_clamped_by_one cfg9 m9 45 1 (by decide) (by decide) (by decide)).1
      (by decide)).2.2.2 (by decide)⟩

/-! ## C6: escape at the keyboard versus pointer activation -/

/-- C6: the claim says a keyboard Escape (or Left) closes the submenu or,
at the root, terminates the loop as cancelled. In the code the whole
keyboard-navigation block is commented out, so a key press changes
nothing and never terminates the loop, for every key including Escape; by
contrast the live pointer path does terminate the loop with the item
output on a leaf activation. -/
theorem C6_keyboard_dead_pointer_leaf_returns_output (cfg : Config) (m : MMenu Int)
    (k : Nat) (y i : Int)
    (hgi : getitem cfg m y = i) (hpos : 0 ≤ i) (hlt : i.toNat < m.items.length)
    (hlab : (m.items.get ⟨i.toNat, hlt⟩).core.label ≠ "")
    (hsub : (m.items.get ⟨i.toNat, hlt⟩).submenu = Option.none)
    (hot : isoverflowitem cfg m y ≠ .top)
    (hob : isoverflowitem cfg m y ≠ .bottom) :
    handleKey m true k = (m, Option.none) ∧
    handleButton cfg m true y
      = (m, .success (m.items.get ⟨i.toNat, hlt⟩).core.output) := by
  subst hgi
  refine ⟨rfl, ?_⟩
  rw [handleButton]
  dsimp only
  rw [if_neg (by simp)]
  rw [if_neg (by rintro ⟨h1, h2⟩; omega)]
  rw [if_neg hot, if_neg hob]
  rw [dif_pos ⟨hpos, hlt⟩]
  dsimp only
  rw [if_neg hlab, hsub]

theorem C6_keyboard_dead_pointer_leaf_returns_output_witness :
    handleKey m6 true 1 = (m6, Option.none) ∧
    handleButton cfg9 m6 true 5 = (m6, .success 1) := by
  have h := C6_keyboard_dead_pointer_leaf_returns_output cfg9 m6 1 5 0
    (by decide) (by decide) (by decide) (by decide) (by rfl) (by decide) (by decide)
  refine ⟨h.1, ?_⟩
  rw [h.2]
  rfl


/-! ## C4: matchitem characterization -/

theorem goSuffixHit_iff (t : List Char) :
    ∀ l : List Char, goSuffixHit l t = true ↔ (t ≠ [] ∧ t <:+ l) := by
  intro l
  induction l with
  | nil =>
    simp [goSuffixHit, List.suffix_nil]
  | cons c rest ih =>
    simp only [goSuffixHit, Bool.or_eq_true, beq_iff_eq, ih, List.suffix_cons_iff]
    constructor
    · rintro (he | ⟨hne, hsuf⟩)
      · refine ⟨?_, Or.inl he.symm⟩
        rw [← he]
        exact List.cons_ne_nil c rest
      · exact ⟨hne, Or.inr hsuf⟩
    · rintro ⟨hne, he | hsuf⟩
      · exact Or.inl he.symm
      · exact Or.inr ⟨hne, hsuf⟩

theorem scanUpN_cases (labels : List String) (text : List Char) (i : Nat) :
    (scanUpN labels text i = -1 ∧
      ∀ j (hj : j < labels.length), i ≤ j →
        goSuffixHit (labels.get ⟨j, hj⟩).toList text = false) ∨
    (∃ j, ∃ hj : j < labels.length, i ≤ j ∧ scanUpN labels text i = (j : Int) ∧
      goSuffixHit (labels.get ⟨j, hj⟩).toList text = true ∧
      ∀ k (hk : k < labels.length), i ≤ k → k < j →
        goSuffixHit (labels.get ⟨k, hk⟩).toList text = false) := by
  by_cases h : i < labels.length
  · by_cases hhit : goSuffixHit (labels.get ⟨i, h⟩).toList text = true
    · right
      refine ⟨i, h, le_refl i, ?_, hhit, ?_⟩
      · rw [scanUpN, dif_pos h, if_pos hhit]
      · intro k hk hik hki
        exact absurd (lt_of_le_of_lt hik hki) (lt_irrefl i)
    · have hmain : scanUpN labels text i = scanUpN labels text (i + 1) := by
        rw [scanUpN, dif_pos h, if_neg hhit]
      rw [Bool.not_eq_true] at hhit
      rcases scanUpN_cases labels text (i + 1) with ⟨hneg, hall⟩ | ⟨j, hj, hij, heq, hh, hmin⟩
      · left
        refine ⟨by rw [hmain]; exact hneg, ?_⟩
        intro j hjlen hij
        rcases Nat.eq_or_lt_of_le hij with he | hlt
        · cases he
          exact hhit
        · exact hall j hjlen hlt
      · right
        refine ⟨j, hj, by omega, by rw [hmain]; exact heq, hh, ?_⟩
        intro k hk hik hkj
        rcases Nat.eq_or_lt_of_le hik with he | hlt
        · cases he
          exact hhit
        · exact hmin k hk hlt hkj
  · left
    constructor
    · rw [scanUpN, dif_neg h]
    · intro j hj hij
      exact absurd hj (by omega)
termination_by labels.length - i
decreasing_by omega

theorem scanDownN_cases (labels : List String) (text : List Char) :
    ∀ i : Nat, i < labels.length →
      (scanDownN labels text i = -1 ∧
        ∀ j (hj : j < labels.length), j ≤ i →
          goSuffixHit (labels.get ⟨j, hj⟩).toList text = false) ∨
      (∃ j, ∃ hj : j < labels.length, j ≤ i ∧ scanDownN labels text i = (j : Int) ∧
        goSuffixHit (labels.get ⟨j, hj⟩).toList text = true ∧
        ∀ k (hk : k < labels.length), k ≤ i → j < k →
          goSuffixHit (labels.get ⟨k, hk⟩).toList text = false) := by
  intro i
  induction i with
  | zero =>
    intro hi
    by_cases hhit : goSuffixHit (labels.get ⟨0, hi⟩).toList text = true
    · right
      refine ⟨0, hi, le_refl 0, ?_, hhit, ?_⟩
      · rw [scanDownN, dif_pos hi, if_pos hhit]
      · intro k hk hk0 h0k
        omega
    · left
      rw [Bool.not_eq_true] at hhit
      refine ⟨?_, ?_⟩
      · rw [scanDownN, dif_pos hi, if_neg (by simpa using hhit), dif_pos rfl]
      · intro j hj hj0
        have : j = 0 := by omega
        subst this
        exact hhit
  | succ n ihn =>
    intro hi
    by_cases hhit : goSuffixHit (labels.get ⟨n + 1, hi⟩).toList text = true
    · right
      refine ⟨n + 1, hi, le_refl _, ?_, hhit, ?_⟩
      · rw [scanDownN, dif_pos hi, if_pos hhit]
      · intro k hk hkn hnk
        omega
    · have hmain : scanDownN labels text (n + 1) = scanDownN labels text n := by
        rw [scanDownN, dif_pos hi, if_neg hhit, dif_neg (Nat.succ_ne_zero n)]
        congr 1
      rw [Bool.not_eq_true] at hhit
      rcases ihn (by omega) with ⟨hneg, hall⟩ | ⟨j, hj, hjn, heq, hh, hmin⟩
      · left
        refine ⟨by rw [hmain]; exact hneg, ?_⟩
        intro j hjlen hjn1
        rcases Nat.eq_or_lt_of_le hjn1 with he | hlt
        · cases he
          exact hhit
        · exact hall j hjlen (by omega)
      · right
        refine ⟨j, hj, by omega, by rw [hmain]; exact heq, hh, ?_⟩
        intro k hk hkn1 hjk
        rcases Nat.eq_or_lt_of_le hkn1 with he | hlt
        · cases he
          exact hhit
        · exact hmin k hk (by omega) hjk


theorem scanUpI_neg1_iff (labels : List String) (text : List Char) (s : Int)
    (hs : 0 ≤ s) :
    scanUpI labels text s = -1 ↔
      ∀ j (hj : j < labels.length), s ≤ (j : Int) →
        goSuffixHit (labels.get ⟨j, hj⟩).toList text = false := by
  rw [scanUpI, if_neg (by omega)]
  rcases scanUpN_cases labels text s.toNat with ⟨hneg, hall⟩ | ⟨j, hj, hij, heq, hh, hmin⟩
  · constructor
    · intro _ j hj hsj
      exact hall j hj (by omega)
    · intro _
      exact hneg
  · constructor
    · intro h0
      rw [heq] at h0
      exfalso
      omega
    · intro hall
      have hf := hall j hj (by omega)
      rw [hf] at hh
      simp at hh

theorem scanUpI_found (labels : List String) (text : List Char) (s : Int)
    (hs : 0 ≤ s) (h : scanUpI labels text s ≠ -1) :
    ∃ j, ∃ hj : j < labels.length, scanUpI labels text s = (j : Int) ∧ s ≤ (j : Int) ∧
      goSuffixHit (labels.get ⟨j, hj⟩).toList text = true ∧
      ∀ k (hk : k < labels.length), s ≤ (k : Int) → k < j →
        goSuffixHit (labels.get ⟨k, hk⟩).toList text = false := by
  rw [scanUpI, if_neg (by omega)] at h ⊢
  rcases scanUpN_cases labels text s.toNat with ⟨hneg, _⟩ | ⟨j, hj, hij, heq, hh, hmin⟩
  · exact absurd hneg h
  · exact ⟨j, hj, heq, by omega, hh, fun k hk hsk hkj => hmin k hk (by omega) hkj⟩

theorem scanDownI_neg1_iff (labels : List String) (text : List Char) (s : Int)
    (hs : s < (labels.length : Int)) :
    scanDownI labels text s = -1 ↔
      ∀ j (hj : j < labels.length), (j : Int) ≤ s →
        goSuffixHit (labels.get ⟨j, hj⟩).toList text = false := by
  by_cases h0 : 0 ≤ s
  · rw [scanDownI, if_pos ⟨h0, hs⟩]
    have hi : s.toNat < labels.length := by omega
    rcases scanDownN_cases labels text s.toNat hi with ⟨hneg, hall⟩ | ⟨j, hj, hij, heq, hh, _⟩
    · constructor
      · intro _ j hj hjs
        exact hall j hj (by omega)
      · intro _
        exact hneg
    · constructor
      · intro hcontr
        rw [heq] at hcontr
        exfalso
        omega
      · intro hall
        have hf := hall j hj (by omega)
        rw [hf] at hh
        simp at hh
  · rw [scanDownI, if_neg (fun hc => h0 hc.1)]
    constructor
    · intro _ j hj hjs
      exfalso
      omega
    · intro _
      rfl

theorem scanDownI_found (labels : List String) (text : List Char) (s : Int)
    (hs : s < (labels.length : Int)) (h : scanDownI labels text s ≠ -1) :
    ∃ j, ∃ hj : j < labels.length, scanDownI labels text s = (j : Int) ∧ (j : Int) ≤ s ∧
      goSuffixHit (labels.get ⟨j, hj⟩).toList text = true ∧
      ∀ k (hk : k < labels.length), (k : Int) ≤ s → j < k →
        goSuffixHit (labels.get ⟨k, hk⟩).toList text = false := by
  by_cases h0 : 0 ≤ s
  · rw [scanDownI, if_pos ⟨h0, hs⟩] at h ⊢
    have hi : s.toNat < labels.length := by omega
    rcases scanDownN_cases labels text s.toNat hi with ⟨hneg, _⟩ | ⟨j, hj, hij, heq, hh, hmin⟩
    · exact absurd hneg h
    · exact ⟨j, hj, heq, by omega, hh, fun k hk hks hjk => hmin k hk (by omega) hjk⟩
  · exfalso
    apply h
    rw [scanDownI, if_neg (fun hc => h0 hc.1)]


/-- C4 (amended): matchitem returns the index of an item whose label ENDS
with the typed text (the inner loop compares label suffixes), scanning
once from just after (dir>0) or just before (dir<0) the current selection
and wrapping around the list when the first pass finds nothing (dir = 0
scans from index 0); it returns -1 exactly when no label ends with the
text, and a separator (empty label) is never returned. Stated on the
label list and selection index, which is how `MMenu.matchitem` invokes
`matchitemL` on a menu. The conjuncts: soundness of a non-(-1) result,
the -1 characterization, and the first-pass/wrap scan order for each
direction class. -/
theorem C4_matchitem_suffix_characterization (labels : List String) (sel : Int)
    (text : List Char) (dir : Int)
    (htext : text ≠ [])
    (hsel : sel = -1 ∨ (0 ≤ sel ∧ sel < (labels.length : Int))) :
    (matchitemL labels sel text dir ≠ -1 →
      ∃ j, ∃ hj : j < labels.length, matchitemL labels sel text dir = (j : Int) ∧
        text <:+ (labels.get ⟨j, hj⟩).toList ∧ labels.get ⟨j, hj⟩ ≠ "") ∧
    (matchitemL labels sel text dir = -1 ↔
      ∀ j (hj : j < labels.length), ¬ text <:+ (labels.get ⟨j, hj⟩).toList) ∧
    (dir = 0 →
      ∀ j (hj : j < labels.length), (j : Int) < matchitemL labels sel text dir →
        ¬ text <:+ (labels.get ⟨j, hj⟩).toList) ∧
    (0 < dir →
      (∀ j (hj : j < labels.length),
        (if sel ≠ -1 ∧ sel < (labels.length : Int) - 1 then sel + 1 else 0) ≤ (j : Int) →
        (j : Int) < matchitemL labels sel text dir →
        ¬ text <:+ (labels.get ⟨j, hj⟩).toList) ∧
      ((∀ j (hj : j < labels.length),
          (if sel ≠ -1 ∧ sel < (labels.length : Int) - 1 then sel + 1 else 0) ≤ (j : Int) →
          ¬ text <:+ (labels.get ⟨j, hj⟩).toList) →
        ∀ j (hj : j < labels.length), (j : Int) < matchitemL labels sel text dir →
          ¬ text <:+ (labels.get ⟨j, hj⟩).toList)) ∧
    (dir < 0 →
      (∀ j (hj : j < labels.length),
        (j : Int) ≤ (if sel ≠ -1 ∧ sel > 0 then sel - 1 else (labels.length : Int) - 1) →
        matchitemL labels sel text dir < (j : Int) →
        ¬ text <:+ (labels.get ⟨j, hj⟩).toList) ∧
      ((∀ j (hj : j < labels.length),
          (j : Int) ≤ (if sel ≠ -1 ∧ sel > 0 then sel - 1 else (labels.length : Int) - 1) →
          ¬ text <:+ (labels.get ⟨j, hj⟩).toList) →
        ∀ j (hj : j < labels.length), matchitemL labels sel text dir < (j : Int) →
          ¬ text <:+ (labels.get ⟨j, hj⟩).toList)) := by
  have hcT : ∀ j (hj : j < labels.length),
      goSuffixHit (labels.get ⟨j, hj⟩).toList text = true →
        text <:+ (labels.get ⟨j, hj⟩).toList :=
    fun j hj h => ((goSuffixHit_iff text _).mp h).2
  have hcF : ∀ j (hj : j < labels.length),
      goSuffixHit (labels.get ⟨j, hj⟩).toList text = false →
        ¬ text <:+ (labels.get ⟨j, hj⟩).toList := by
    intro j hj h hsuf
    have hb := (goSuffixHit_iff text (labels.get ⟨j, hj⟩).toList).mpr ⟨htext, hsuf⟩
    rw [h] at hb
    exact Bool.false_ne_true hb
  have hlabne : ∀ j (hj : j < labels.length),
      text <:+ (labels.get ⟨j, hj⟩).toList → labels.get ⟨j, hj⟩ ≠ "" := by
    intro j hj hsuf he
    rw [he] at hsuf
    exact htext (by simpa [List.suffix_nil] using hsuf)
  rcases lt_trichotomy dir 0 with hdir | hdir | hdir
  · -- dir < 0: downward scan from just before the selection, wrap from the end
    have hm0 : matchitemL labels sel text dir =
        (if scanDownI labels text
              (if sel ≠ -1 ∧ sel > 0 then sel - 1 else (labels.length : Int) - 1) ≠ -1
         then scanDownI labels text
              (if sel ≠ -1 ∧ sel > 0 then sel - 1 else (labels.length : Int) - 1)
         else scanDownI labels text ((labels.length : Int) - 1)) := by
      simp only [matchitemL]
      rw [if_pos hdir]
    have hsd_lt : (if sel ≠ -1 ∧ sel > 0 then sel - 1 else (labels.length : Int) - 1)
        < (labels.length : Int) := by
      split_ifs with hc
      · rcases hsel with hA | ⟨h1, h2⟩
        · exact absurd hA hc.1
        · omega
      · omega
    by_cases hr1 : scanDownI labels text
        (if sel ≠ -1 ∧ sel > 0 then sel - 1 else (labels.length : Int) - 1) = -1
    · have hmv : matchitemL labels sel text dir
          = scanDownI labels text ((labels.length : Int) - 1) := by
        rw [hm0, if_neg (by simpa using hr1)]
      have hnone_sd := (scanDownI_neg1_iff labels text _ hsd_lt).mp hr1
      have hlen1 : ((labels.length : Int) - 1) < (labels.length : Int) := by omega
      by_cases hr2 : scanDownI labels text ((labels.length : Int) - 1) = -1
      · have hmv1 : matchitemL labels sel text dir = -1 := hmv.trans hr2
        have hnone_all := (scanDownI_neg1_iff labels text _ hlen1).mp hr2
        refine ⟨?_, ?_, ?_, ?_, ?_⟩
        · intro hne
          exact absurd hmv1 hne
        · exact ⟨fun _ j hj => hcF j hj (hnone_all j hj (by omega)), fun _ => hmv1⟩
        · intro h0
          exfalso
          omega
        · intro h0
          exfalso
          omega
        · intro _
          exact ⟨fun k hk hkle _ => hcF k hk (hnone_sd k hk hkle),
            fun _ k hk _ => hcF k hk (hnone_all k hk (by omega))⟩
      · obtain ⟨j, hj, hjeq, hjle, hjhit, hjmin⟩ :=
          scanDownI_found labels text _ hlen1 hr2
        have hmvj : matchitemL labels sel text dir = (j : Int) := hmv.trans hjeq
        refine ⟨?_, ?_, ?_, ?_, ?_⟩
        · intro _
          exact ⟨j, hj, hmvj, hcT j hj hjhit, hlabne j hj (hcT j hj hjhit)⟩
        · constructor
          · intro hcontr
            rw [hmvj] at hcontr
            exfalso
            omega
          · intro hall
            exact absurd (hcT j hj hjhit) (hall j hj)
        · intro h0
          exfalso
          omega
        · intro h0
          exfalso
          omega
        · intro _
          refine ⟨?_, ?_⟩
          · intro k hk hkle _
            exact hcF k hk (hnone_sd k hk hkle)
          · intro _ k hk hklt
            rw [hmvj] at hklt
            exact hcF k hk (hjmin k hk (by omega) (by omega))
    · have hmv : matchitemL labels sel text dir = scanDownI labels text
          (if sel ≠ -1 ∧ sel > 0 then sel - 1 else (labels.length : Int) - 1) := by
        rw [hm0, if_pos hr1]
      obtain ⟨j, hj, hjeq, hjle, hjhit, hjmin⟩ :=
        scanDownI_found labels text _ hsd_lt hr1
      have hmvj : matchitemL labels sel text dir = (j : Int) := hmv.trans hjeq
      refine ⟨?_, ?_, ?_, ?_, ?_⟩
      · intro _
        exact ⟨j, hj, hmvj, hcT j hj hjhit, hlabne j hj (hcT j hj hjhit)⟩
      · constructor
        · intro hcontr
          rw [hmvj] at hcontr
          exfalso
          omega
        · intro hall
          exact absurd (hcT j hj hjhit) (hall j hj)
      · intro h0
        exfalso
        omega
      · intro h0
        exfalso
        omega
      · intro _
        refine ⟨?_, ?_⟩
        · intro k hk hkle hklt
          rw [hmvj] at hklt
          exact hcF k hk (hjmin k hk hkle (by omega))
        · intro hall
          exact absurd (hcT j hj hjhit) (hall j hj hjle)
  · -- dir = 0: upward scan from 0, rescan from the last index
    have hm0 : matchitemL labels sel text dir =
        (if scanUpI labels text 0 ≠ -1 then scanUpI labels text 0
         else scanUpI labels text ((labels.length : Int) - 1)) := by
      simp only [matchitemL]
      rw [if_neg (by omega), if_neg (by omega)]
    by_cases hr1 : scanUpI labels text 0 = -1
    · have hnone_all := (scanUpI_neg1_iff labels text 0 (le_refl 0)).mp hr1
      have hr2 : scanUpI labels text ((labels.length : Int) - 1) = -1 := by
        by_cases hl : (0 : Int) ≤ (labels.length : Int) - 1
        · rw [scanUpI_neg1_iff labels text _ hl]
          intro j hj _
          exact hnone_all j hj (by omega)
        · rw [scanUpI, if_pos (by omega)]
      have hmv1 : matchitemL labels sel text dir = -1 := by
        rw [hm0, if_neg (by simpa using hr1)]
        exact hr2
      refine ⟨?_, ?_, ?_, ?_, ?_⟩
      · intro hne
        exact absurd hmv1 hne
      · exact ⟨fun _ j hj => hcF j hj (hnone_all j hj (by omega)), fun _ => hmv1⟩
      · intro _ j hj hjlt
        exact hcF j hj (hnone_all j hj (by omega))
      · intro h0
        exfalso
        omega
      · intro h0
        exfalso
        omega
    · obtain ⟨j, hj, hjeq, hjle, hjhit, hjmin⟩ :=
        scanUpI_found labels text 0 (le_refl 0) hr1
      have hmvj : matchitemL labels sel text dir = (j : Int) := by
        rw [hm0, if_pos hr1]
        exact hjeq
      refine ⟨?_, ?_, ?_, ?_, ?_⟩
      · intro _
        exact ⟨j, hj, hmvj, hcT j hj hjhit, hlabne j hj (hcT j hj hjhit)⟩
      · constructor
        · intro hcontr
          rw [hmvj] at hcontr
          exfalso
          omega
        · intro hall
          exact absurd (hcT j hj hjhit) (hall j hj)
      · intro _ k hk hklt
        rw [hmvj] at hklt
        exact hcF k hk (hjmin k hk (by omega) (by omega))
      · intro h0
        exfalso
        omega
      · intro h0
        exfalso
        omega
  · -- dir > 0: upward scan from just after the selection, wrap from 0
    have hm0 : matchitemL labels sel text dir =
        (if scanUpI labels text
              (if sel ≠ -1 ∧ sel < (labels.length : Int) - 1 then sel + 1 else 0) ≠ -1
         then scanUpI labels text
              (if sel ≠ -1 ∧ sel < (labels.length : Int) - 1 then sel + 1 else 0)
         else scanUpI labels text 0) := by
      simp only [matchitemL]
      rw [if_neg (by omega), if_pos hdir]
    have hsu_0 : 0 ≤ (if sel ≠ -1 ∧ sel < (labels.length : Int) - 1 then sel + 1 else 0) := by
      split_ifs with hc
      · rcases hsel with hA | ⟨h1, h2⟩
        · exact absurd hA hc.1
        · omega
      · omega
    by_cases hr1 : scanUpI labels text
        (if sel ≠ -1 ∧ sel < (labels.length : Int) - 1 then sel + 1 else 0) = -1
    · have hmv : matchitemL labels sel text dir = scanUpI labels text 0 := by
        rw [hm0, if_neg (by simpa using hr1)]
      have hnone_su := (scanUpI_neg1_iff labels text _ hsu_0).mp hr1
      by_cases hr2 : scanUpI labels text 0 = -1
      · have hmv1 : matchitemL labels sel text dir = -1 := hmv.trans hr2
        have hnone_all := (scanUpI_neg1_iff labels text 0 (le_refl 0)).mp hr2
        refine ⟨?_, ?_, ?_, ?_, ?_⟩
        · intro hne
          exact absurd hmv1 hne
        · exact ⟨fun _ j hj => hcF j hj (hnone_all j hj (by omega)), fun _ => hmv1⟩
        · intro h0
          exfalso
          omega
        · intro _
          exact ⟨fun k hk hkle _ => hcF k hk (hnone_su k hk hkle),
            fun _ k hk _ => hcF k hk (hnone_all k hk (by omega))⟩
        · intro h0
          exfalso
          omega
      · obtain ⟨j, hj, hjeq, hjle, hjhit, hjmin⟩ :=
          scanUpI_found labels text 0 (le_refl 0) hr2
        have hmvj : matchitemL labels sel text dir = (j : Int) := hmv.trans hjeq
        refine ⟨?_, ?_, ?_, ?_, ?_⟩
        · intro _
          exact ⟨j, hj, hmvj, hcT j hj hjhit, hlabne j hj (hcT j hj hjhit)⟩
        · constructor
          · intro hcontr
            rw [hmvj] at hcontr
            exfalso
            omega
          · intro hall
            exact absurd (hcT j hj hjhit) (hall j hj)
        · intro h0
          exfalso
          omega
        · intro _
          refine ⟨?_, ?_⟩
          · intro k hk hkle _
            exact hcF k hk (hnone_su k hk hkle)
          · intro _ k hk hklt
            rw [hmvj] at hklt
            exact hcF k hk (hjmin k hk (by omega) (by omega))
        · intro h0
          exfalso
          omega
    · have hmv : matchitemL labels sel text dir = scanUpI labels text
          (if sel ≠ -1 ∧ sel < (labels.length : Int) - 1 then sel + 1 else 0) := by
        rw [hm0, if_pos hr1]
      obtain ⟨j, hj, hjeq, hjle, hjhit, hjmin⟩ :=
        scanUpI_found labels text _ hsu_0 hr1
      have hmvj : matchitemL labels sel text dir = (j : Int) := hmv.trans hjeq
      refine ⟨?_, ?_, ?_, ?_, ?_⟩
      · intro _
        exact ⟨j, hj, hmvj, hcT j hj hjhit, hlabne j hj (hcT j hj hjhit)⟩
      · constructor
        · intro hcontr
          rw [hmvj] at hcontr
          exfalso
          omega
        · intro hall
          exact absurd (hcT j hj hjhit) (hall j hj)
      · intro h0
        exfalso
        omega
      · intro _
        refine ⟨?_, ?_⟩
        · intro k hk hkle hklt
          rw [hmvj] at hklt
          exact hcF k hk (hjmin k hk hkle (by omega))
        · intro hall
          exact absurd (hcT j hj hjhit) (hall j hj hjle)
      · intro h0
        exfalso
        omega

theorem C4_matchitem_suffix_characterization_witness :
    matchitemL ["ab", "cb"] (-1) ['b'] 1 = -1 ↔
      ∀ j (hj : j < (["ab", "cb"] : List String).length),
        ¬ ['b'] <:+ ((["ab", "cb"] : List String).get ⟨j, hj⟩).toList :=
  (C4_matchitem_suffix_characterization ["ab", "cb"] (-1) ['b'] 1
    (by decide) (Or.inl rfl)).2.1

end Ctxmenu
